import Mathlib

/-!
Shallow embedding of the English-Speaking-Tutor-App (TypeScript sources) for
verifying its natural-language specification.

Texts are modelled as lists of characters (`Str`); JavaScript `String.prototype.trim`
becomes `trimStr`.  Entry ids in the source are wall-clock values
(`Date.now() + Math.random()`); they are irrelevant to every transcript-content
property and are either omitted or passed as explicit parameters.
-/

/-- Characters of a JavaScript string, in order. -/
abbrev Str := List Char

/-- Whitespace test used by `trim`. -/
def isWS (c : Char) : Bool := c.isWhitespace

/-- JavaScript `s.trim()`: remove leading and trailing whitespace. -/
def trimStr (s : Str) : Str :=
  ((s.dropWhile isWS).reverse.dropWhile isWS).reverse

/-- A list trims to empty exactly when every character is whitespace. -/
theorem trimStr_eq_nil_iff (s : Str) : trimStr s = [] ↔ ∀ c ∈ s, isWS c := by
  unfold trimStr
  rw [List.reverse_eq_nil_iff, List.dropWhile_eq_nil_iff]
  constructor
  · intro h c hc
    rw [← List.takeWhile_append_dropWhile isWS s] at hc
    rcases List.mem_append.mp hc with h1 | h2
    · exact List.mem_takeWhile_imp h1
    · exact h c (List.mem_reverse.mpr h2)
  · intro h c hc
    exact h c (List.Sublist.mem (List.mem_reverse.mp hc) (List.dropWhile_sublist isWS))

/-- Trimming a concatenation of all-whitespace pieces yields the empty string. -/
theorem trimStr_append_eq_nil (a b : Str) (ha : trimStr a = []) (hb : trimStr b = []) :
    trimStr (a ++ b) = [] := by
  rw [trimStr_eq_nil_iff] at ha hb ⊢
  intro c hc
  rcases List.mem_append.mp hc with h | h
  · exact ha c h
  · exact hb c h

/-! ## Transcript data model (src/types.ts) -/

/-- Sender tag of a finalized transcript entry (`'user' | 'ai' | 'status'`). -/
inductive Sender
  | user
  | ai
  | status
deriving DecidableEq

/-- Sender tag of the in-flight live transcript and of chat messages (`'user' | 'ai'`). -/
inductive LiveSender
  | user
  | ai
deriving DecidableEq

/-- Inclusion of the two live senders into the three transcript senders. -/
def LiveSender.toSender : LiveSender → Sender
  | .user => .user
  | .ai => .ai

/-- A finalized transcript entry (`Transcription` in src/types.ts); the wall-clock
id `Date.now() + Math.random()` is not modelled. -/
structure Transcription where
  sender : Sender
  text : Str
deriving DecidableEq

/-- The pending in-flight entry (`liveTranscript` state in LivePractice.tsx):
`{sender: 'user' | 'ai', text: string} | null`. -/
structure LiveTranscript where
  sender : LiveSender
  text : Str
deriving DecidableEq

/-! ## Transcript Reconciler (src/components/LivePractice.tsx) -/

/-- The `addTranscription` callback: drop the text when it trims to empty,
otherwise append a new entry at the end of the history. -/
def addTranscription (history : List Transcription) (sender : Sender) (text : Str) :
    List Transcription :=
  if trimStr text = [] then history else history ++ [⟨sender, text⟩]

/-- Transcript-affecting events delivered by the remote channel to `onmessage`
(`serverContent.outputTranscription`, `serverContent.inputTranscription`,
`serverContent.turnComplete`), one component per message. -/
inductive LiveServerEvent
  | outputTranscription (text : Str)
  | inputTranscription (text : Str)
  | turnComplete
deriving DecidableEq

/-- Reconciler state: the pending entry, the finalized history, and the points
counter mutated through `addPoints` (src/unnamed/part_001). -/
structure RecState where
  liveTranscript : Option LiveTranscript
  history : List Transcription
  points : ℕ
deriving DecidableEq

/-- One step of the `onmessage` reconciliation logic of LivePractice.tsx
(lines 422-458).  An AI fragment arriving over a pending user entry commits
that entry and awards 5 points; a user fragment arriving over a pending AI
entry commits it without points; a same-speaker fragment appends its text;
`turnComplete` commits the pending entry when its raw text is non-empty,
awarding 5 points when it is the user's. -/
def onmessage (s : RecState) : LiveServerEvent → RecState
  | .outputTranscription chunk =>
    match s.liveTranscript with
    | some prev =>
      if prev.sender = .user then
        { liveTranscript := some ⟨.ai, chunk⟩,
          history := addTranscription s.history .user prev.text,
          points := s.points + 5 }
      else
        { s with liveTranscript := some ⟨.ai, prev.text ++ chunk⟩ }
    | none => { s with liveTranscript := some ⟨.ai, chunk⟩ }
  | .inputTranscription chunk =>
    match s.liveTranscript with
    | some prev =>
      if prev.sender = .ai then
        { liveTranscript := some ⟨.user, chunk⟩,
          history := addTranscription s.history .ai prev.text,
          points := s.points }
      else
        { s with liveTranscript := some ⟨.user, prev.text ++ chunk⟩ }
    | none => { s with liveTranscript := some ⟨.user, chunk⟩ }
  | .turnComplete =>
    match s.liveTranscript with
    | some prev =>
      if prev.text = [] then { s with liveTranscript := none }
      else
        { liveTranscript := none,
          history := addTranscription s.history prev.sender.toSender prev.text,
          points := s.points + (if prev.sender = .user then 5 else 0) }
    | none => { s with liveTranscript := none }

/-- Process a whole event sequence in arrival order. -/
def runLive (s : RecState) : List LiveServerEvent → RecState
  | [] => s
  | e :: rest => runLive (onmessage s e) rest

/-- The fragment event carrying a given speaker's text: the remote service tags
the AI's speech as `outputTranscription` and the user's as `inputTranscription`. -/
def fragEvent : LiveSender → Str → LiveServerEvent
  | .ai, t => .outputTranscription t
  | .user, t => .inputTranscription t

/-! ## Gamification Counter (src/unnamed/part_001) -/

/-- The `ProgressData` record of src/types.ts.  Calendar dates are modelled as
day numbers (the source compares ISO `YYYY-MM-DD` strings for equality; the
encoding is injective and consecutive days differ by one). -/
structure ProgressData where
  points : ℕ
  streak : ℕ
  lastPracticeDate : Option ℕ
  speakingSessions : ℕ
  writingSessions : ℕ
deriving DecidableEq

/-- The `addPoints` operation: read-modify-write of the points counter. -/
def addPoints (p : ProgressData) (amount : ℕ) : ProgressData :=
  { p with points := p.points + amount }

/-- The `updateStreak` operation, with the clock's current day passed
explicitly; `yesterday` is the previous calendar day.  Already practiced today
is a no-op; practiced yesterday continues the streak; anything else resets it
to 1; in the non-no-op cases the last practice date becomes today. -/
def updateStreak (p : ProgressData) (today : ℕ) : ProgressData :=
  if p.lastPracticeDate = some today then p
  else
    let yesterday := today - 1
    let newStreak := if p.lastPracticeDate = some yesterday then p.streak + 1 else 1
    { p with streak := newStreak, lastPracticeDate := some today }

/-- The `incrementSpeakingSessions` operation. -/
def incrementSpeakingSessions (p : ProgressData) : ProgressData :=
  { p with speakingSessions := p.speakingSessions + 1 }

/-- The `incrementWritingSessions` operation. -/
def incrementWritingSessions (p : ProgressData) : ProgressData :=
  { p with writingSessions := p.writingSessions + 1 }

/-! ## Audio sample encoding and decoding (src/components/LivePractice.tsx).

Samples are modelled as exact rationals.  A JavaScript assignment to an
`Int16Array` element truncates the number toward zero and wraps it modulo
2^16 into the signed 16-bit range (the `ToInt16` abstract operation). -/

/-- Truncation toward zero, as JavaScript's `ToIntegerOrInfinity`. -/
def jsTrunc (x : ℚ) : ℤ := if 0 ≤ x then ⌊x⌋ else ⌈x⌉

/-- Wrap an integer into the signed 16-bit range, as `ToInt16`: reduce modulo
2^16 and reinterpret the residue as a signed 16-bit value. -/
def toInt16 (n : ℤ) : ℤ :=
  if n % 65536 < 32768 then n % 65536 else n % 65536 - 65536

/-- Encoding of one outbound sample in `createBlob`: `int16[i] = data[i] * 32768`. -/
def createBlobSample (x : ℚ) : ℤ := toInt16 (jsTrunc (x * 32768))

/-- Decoding of one inbound 16-bit sample in `decodeAudioData`:
`channelData[i] = dataInt16[i] / 32768.0`. -/
def decodeSample (n : ℤ) : ℚ := (n : ℚ) / 32768

/-- The sample loop of `createBlob` over a mono frame. -/
def createBlob (data : List ℚ) : List ℤ := data.map createBlobSample

/-- The sample loop of `decodeAudioData` over a mono (numChannels = 1) chunk. -/
def decodeAudioData (data : List ℤ) : List ℚ := data.map decodeSample

/-! ## Playback scheduling (src/components/LivePractice.tsx, onmessage audio branch) -/

/-- Scheduling of one decoded audio chunk: clamp the `nextStartTime` cursor up
to the output clock's `currentTime`, start the buffer at the clamped cursor,
and advance the cursor by the buffer's duration.  Returns the scheduled start
time and the new cursor. -/
def scheduleAudioChunk (nextStartTime currentTime duration : ℚ) : ℚ × ℚ :=
  let start := max nextStartTime currentTime
  (start, start + duration)

/-- Schedule a sequence of chunks, each given as (clock's current time at
arrival, buffer duration); returns the (start, duration) pairs. -/
def runSchedule (nextStartTime : ℚ) : List (ℚ × ℚ) → List (ℚ × ℚ)
  | [] => []
  | (now, dur) :: rest =>
    let start := max nextStartTime now
    (start, dur) :: runSchedule (start + dur) rest

/-! ## Saved conversation history (src/unnamed/part_001) -/

/-- Conversation kind (`'speak' | 'write'`). -/
inductive ConvType
  | speak
  | write
deriving DecidableEq

/-- A chat message (`Message` in src/types.ts). -/
structure Message where
  id : ℕ
  sender : LiveSender
  text : Str
deriving DecidableEq

/-- A saved transcript item: a chat `Message` or a live `Transcription`
(`(Message | Transcription)[]` in src/types.ts). -/
abbrev TranscriptItem := Message ⊕ Transcription

/-- A `SavedConversation` record; `date` is a timestamp. -/
structure SavedConversation where
  id : ℕ
  type : ConvType
  date : ℕ
  transcript : List TranscriptItem
deriving DecidableEq

/-- The `getSavedConversations` read: an absent key yields the empty collection,
and the stored list is sorted by date descending (newest first), per the
comparator `new Date(b.date).getTime() - new Date(a.date).getTime()`. -/
def getSavedConversations (store : Option (List SavedConversation)) :
    List SavedConversation :=
  (store.getD []).mergeSort (fun a b => decide (b.date ≤ a.date))

/-- The `saveConversation` write: re-read the collection, build the new record
with `id` and `date` drawn from the clock (`now`), and `unshift` it onto the
front; the result is what is stored back. -/
def saveConversation (store : Option (List SavedConversation)) (ctype : ConvType)
    (transcript : List TranscriptItem) (now : ℕ) : List SavedConversation :=
  let history := getSavedConversations store
  ⟨now, ctype, now, transcript⟩ :: history

/-! ## Chat Session Controller (ChatPractice, src/components/LivePractice.tsx part) -/

/-- The fixed fallback reply appended when a streamed chat response fails. -/
def fallbackErrorText : Str :=
  ['I', '\x27', 'm', ' ', 's', 'o', 'r', 'r', 'y', ',', ' ', 'I', ' ',
   'e', 'n', 'c', 'o', 'u', 'n', 't', 'e', 'r', 'e', 'd', ' ',
   'a', 'n', ' ', 'e', 'r', 'r', 'o', 'r', '.', ' ',
   'P', 'l', 'e', 'a', 's', 'e', ' ', 't', 'r', 'y', ' ',
   'a', 'g', 'a', 'i', 'n', '.']

/-- Outcome of one streamed assistant reply: either every chunk arrives and the
stream ends normally, or the transport fails after delivering some chunks. -/
inductive StreamOutcome
  | success (chunks : List Str)
  | failure (chunks : List Str)
deriving DecidableEq

/-- One `setMessages` update inside the chat streaming loop: if a message with
the stream's id exists, replace its text with the accumulated reply, else
append a new AI message carrying it. -/
def applyChunkUpdate (msgs : List Message) (aiMessageId : ℕ) (acc : Str) :
    List Message :=
  if msgs.any (fun m => m.id = aiMessageId) then
    msgs.map (fun m => if m.id = aiMessageId then { m with text := acc } else m)
  else
    msgs ++ [⟨aiMessageId, .ai, acc⟩]

/-- The `for await` loop over the streamed chunks, accumulating the reply text. -/
def streamChunks (msgs : List Message) (aiMessageId : ℕ) (acc : Str) :
    List Str → List Message
  | [] => msgs
  | c :: rest => streamChunks (applyChunkUpdate msgs aiMessageId (acc ++ c)) aiMessageId (acc ++ c) rest

/-- The `handleSendMessage` handler: reject when the input trims to empty, the
chat object is absent, or a send is already in flight; otherwise append the
user message, stream the reply (on failure additionally append the fixed
fallback as the assistant's reply), and finally clear the loading flag.
Message ids (`Date.now()` values) are passed explicitly; the gamification side
effects on success are modelled separately by `addPoints`/`updateStreak`.
Returns the message list and the loading flag. -/
def handleSendMessage (msgs : List Message) (isLoading chatReady : Bool)
    (input : Str) (userMsgId aiMessageId errorMsgId : ℕ)
    (outcome : StreamOutcome) : List Message × Bool :=
  if trimStr input = [] ∨ chatReady = false ∨ isLoading = true then (msgs, isLoading)
  else
    let msgs1 := msgs ++ [⟨userMsgId, .user, input⟩]
    match outcome with
    | .success chunks => (streamChunks msgs1 aiMessageId [] chunks, false)
    | .failure chunks =>
      (streamChunks msgs1 aiMessageId [] chunks ++ [⟨errorMsgId, .ai, fallbackErrorText⟩], false)

/-! ## Explicit save and session teardown (src/components/LivePractice.tsx) -/

/-- A resumable live session (`ContinuableSession` in src/types.ts). -/
structure ContinuableSession where
  id : ℕ
  name : Str
  date : ℕ
  transcript : List Transcription
deriving DecidableEq

/-- The final transcript built by `handleSave`: the pending live fragment is
appended untrimmed whenever its raw text is truthy (non-empty). -/
def handleSaveTranscript (history : List Transcription)
    (live : Option LiveTranscript) : List Transcription :=
  match live with
  | some lt => if lt.text = [] then history else history ++ [⟨lt.sender.toSender, lt.text⟩]
  | none => history

/-- The `handleSave` handler: the same final transcript is written both into a
new `SavedConversation` of kind speak and into the originating
`ContinuableSession` (upserted by id). -/
def handleSave (history : List Transcription) (live : Option LiveTranscript)
    (session : ContinuableSession) (now : ℕ) :
    SavedConversation × ContinuableSession :=
  let finalTranscript := handleSaveTranscript history live
  (⟨now, .speak, now, finalTranscript.map Sum.inr⟩,
   { session with transcript := finalTranscript, date := now })

/-- The final history built by `endSession` at teardown: the pending live
fragment is trimmed, appended with its trimmed text when that is non-empty and
dropped otherwise. -/
def endSessionFinalHistory (history : List Transcription)
    (live : Option LiveTranscript) : List Transcription :=
  match live with
  | some lt =>
    if trimStr lt.text = [] then history
    else history ++ [⟨lt.sender.toSender, trimStr lt.text⟩]
  | none => history

/-! ## Reconciler lemmas -/

/-- A fragment arriving with no pending entry starts a pending entry for its
speaker, carrying exactly the fragment's text. -/
theorem onmessage_frag_none (s : LiveSender) (c : Str) (h : List Transcription) (pts : ℕ) :
    onmessage ⟨none, h, pts⟩ (fragEvent s c) = ⟨some ⟨s, c⟩, h, pts⟩ := by
  cases s <;> rfl

/-- A fragment whose speaker matches the pending entry's speaker appends its
text to the pending entry and changes nothing else. -/
theorem onmessage_frag_same (s : LiveSender) (t c : Str) (h : List Transcription) (pts : ℕ) :
    onmessage ⟨some ⟨s, t⟩, h, pts⟩ (fragEvent s c) = ⟨some ⟨s, t ++ c⟩, h, pts⟩ := by
  cases s <;> simp [onmessage, fragEvent]

/-- Running a sequence of same-speaker fragments over a matching pending entry
concatenates their texts onto it, leaving history and points unchanged. -/
theorem runLive_frags_same (s : LiveSender) (frags : List Str) :
    ∀ (t : Str) (h : List Transcription) (pts : ℕ),
      runLive ⟨some ⟨s, t⟩, h, pts⟩ (frags.map (fragEvent s)) =
        ⟨some ⟨s, t ++ frags.flatten⟩, h, pts⟩ := by
  induction frags with
  | nil => intro t h pts; simp [runLive]
  | cons c rest ih =>
    intro t h pts
    simp only [List.map_cons, runLive, onmessage_frag_same, List.flatten_cons]
    rw [ih (t ++ c) h pts, List.append_assoc]

/-- Processing a concatenation of event lists is processing one after the other. -/
theorem runLive_append (l1 l2 : List LiveServerEvent) :
    ∀ s : RecState, runLive s (l1 ++ l2) = runLive (runLive s l1) l2 := by
  induction l1 with
  | nil => intro s; rfl
  | cons e rest ih => intro s; simp only [List.cons_append, runLive]; exact ih (onmessage s e)

/-- A turn-complete signal over a pending entry with non-empty raw text
finalizes it through `addTranscription`, awarding 5 points when it is the
user's, and clears the pending entry. -/
theorem onmessage_turnComplete_commit (s : LiveSender) (t : Str)
    (h : List Transcription) (pts : ℕ) (ht : t ≠ []) :
    onmessage ⟨some ⟨s, t⟩, h, pts⟩ .turnComplete =
      ⟨none, addTranscription h s.toSender t,
       pts + (if s = .user then 5 else 0)⟩ := by
  simp [onmessage, ht]

/-- C1 (amended): for every non-empty ordered sequence of fragments all tagged
with the same speaker, delivered with no turn-boundary signal in between and
followed by one turn-complete signal, provided the concatenation of the
fragments' texts does not trim to empty, the Reconciler finalizes exactly one
entry whose text equals that concatenation in arrival order (and awards the
fixed 5 points exactly when the speaker is the user). -/
theorem reconciler_same_speaker_single_entry
    (s : LiveSender) (frags : List Str) (h : List Transcription) (pts : ℕ)
    (hne : frags ≠ []) (hws : trimStr frags.flatten ≠ []) :
    runLive ⟨none, h, pts⟩ (frags.map (fragEvent s) ++ [.turnComplete]) =
      ⟨none, h ++ [⟨s.toSender, frags.flatten⟩],
       pts + (if s = .user then 5 else 0)⟩ := by
  obtain ⟨c, rest, rfl⟩ : ∃ c rest, frags = c :: rest := by
    cases frags with
    | nil => exact absurd rfl hne
    | cons c rest => exact ⟨c, rest, rfl⟩
  rw [List.flatten_cons] at hws ⊢
  have ht : c ++ rest.flatten ≠ [] := by
    intro he
    exact hws (by rw [he]; rfl)
  rw [runLive_append, List.map_cons]
  have hrun : runLive ⟨none, h, pts⟩ (fragEvent s c :: rest.map (fragEvent s)) =
      ⟨some ⟨s, c ++ rest.flatten⟩, h, pts⟩ := by
    show runLive (onmessage ⟨none, h, pts⟩ (fragEvent s c)) (rest.map (fragEvent s)) = _
    rw [onmessage_frag_none, runLive_frags_same]
  rw [hrun]
  show onmessage ⟨some ⟨s, c ++ rest.flatten⟩, h, pts⟩ .turnComplete = _
  rw [onmessage_turnComplete_commit s (c ++ rest.flatten) h pts ht]
  rw [addTranscription, if_neg hws]

/-- C1 is false as universally stated: a single whitespace-only user fragment
followed by turn-complete finalizes no entry at all, rather than exactly one
entry carrying the concatenation. -/
theorem reconciler_same_speaker_cex :
    (runLive ⟨none, [], 0⟩ [fragEvent .user [' '], .turnComplete]).history ≠
      [⟨Sender.user, [' ']⟩] := by
  decide

/-- Witness for C1's amended theorem at a concrete two-fragment user turn. -/
theorem reconciler_same_speaker_witness :
    ([['h', 'i'], [' ', 'y']] : List Str) ≠ [] ∧
    trimStr ([['h', 'i'], [' ', 'y']] : List Str).flatten ≠ [] ∧
    runLive ⟨none, [], 0⟩
        (([['h', 'i'], [' ', 'y']] : List Str).map (fragEvent .user) ++ [.turnComplete]) =
      ⟨none, [⟨Sender.user, ['h', 'i', ' ', 'y']⟩], 0 + 5⟩ := by
  refine ⟨by decide, by decide, ?_⟩
  have := reconciler_same_speaker_single_entry .user [['h', 'i'], [' ', 'y']] [] 0
    (by decide) (by decide)
  rw [this]
  decide

/-- C2: a fragment whose speaker differs from the pending entry's speaker
finalizes the pending entry — emitting it exactly when its trimmed text is
non-empty, with its full text and no duplicate — and starts a new pending
entry carrying exactly the new fragment's text for the new speaker. -/
theorem reconciler_speaker_switch
    (s sNew : LiveSender) (t c : Str) (h : List Transcription) (pts : ℕ)
    (hne : s ≠ sNew) :
    onmessage ⟨some ⟨s, t⟩, h, pts⟩ (fragEvent sNew c) =
      ⟨some ⟨sNew, c⟩,
       (if trimStr t = [] then h else h ++ [⟨s.toSender, t⟩]),
       pts + (if s = .user then 5 else 0)⟩ := by
  cases s <;> cases sNew <;>
    simp_all [onmessage, fragEvent, addTranscription, LiveSender.toSender]

/-- Witness for C2 at a concrete user-to-AI switch. -/
theorem reconciler_speaker_switch_witness :
    (LiveSender.user ≠ LiveSender.ai) ∧
    onmessage ⟨some ⟨.user, ['h', 'i']⟩, [], 0⟩ (fragEvent .ai ['Y']) =
      ⟨some ⟨.ai, ['Y']⟩,
       (if trimStr ['h', 'i'] = [] then [] else [⟨Sender.user, ['h', 'i']⟩]),
       0 + (if LiveSender.user = .user then 5 else 0)⟩ := by
  exact ⟨by decide,
    reconciler_speaker_switch .user .ai ['h', 'i'] ['Y'] [] 0 (by decide)⟩

/-- Decidable test that an event carries no visible text: fragment events whose
text is all whitespace, and the turn-complete signal. -/
def eventWS : LiveServerEvent → Bool
  | .outputTranscription t => t.all isWS
  | .inputTranscription t => t.all isWS
  | .turnComplete => true

/-- One reconciliation step over whitespace-only input: if the pending text is
all whitespace and the event carries only whitespace, the history is unchanged
and the pending text stays all whitespace. -/
theorem onmessage_ws_step (s : RecState) (e : LiveServerEvent)
    (hinv : ∀ p, s.liveTranscript = some p → p.text.all isWS)
    (he : eventWS e) :
    (onmessage s e).history = s.history ∧
    (∀ p, (onmessage s e).liveTranscript = some p → p.text.all isWS) := by
  have htrim : ∀ u : Str, u.all isWS → trimStr u = [] := by
    intro u hu
    exact (trimStr_eq_nil_iff u).mpr (List.all_eq_true.mp hu)
  cases e with
  | outputTranscription t =>
    cases hs : s.liveTranscript with
    | none =>
      constructor
      · simp [onmessage, hs]
      · intro p hp
        simp only [onmessage, hs] at hp
        cases hp
        exact he
    | some prev =>
      have hprev : prev.text.all isWS := hinv prev hs
      by_cases hu : prev.sender = .user
      · constructor
        · simp [onmessage, hs, hu, addTranscription, htrim prev.text hprev]
        · intro p hp
          simp only [onmessage, hs, hu, if_pos] at hp
          cases hp
          exact he
      · constructor
        · simp [onmessage, hs, hu]
        · intro p hp
          simp only [onmessage, hs, hu, if_neg, ite_false] at hp
          cases hp
          simp only [List.all_append]
          have he2 : List.all t isWS = true := he
          simp [hprev, he2]
  | inputTranscription t =>
    cases hs : s.liveTranscript with
    | none =>
      constructor
      · simp [onmessage, hs]
      · intro p hp
        simp only [onmessage, hs] at hp
        cases hp
        exact he
    | some prev =>
      have hprev : prev.text.all isWS := hinv prev hs
      by_cases hu : prev.sender = .ai
      · constructor
        · simp [onmessage, hs, hu, addTranscription, htrim prev.text hprev]
        · intro p hp
          simp only [onmessage, hs, hu, if_pos] at hp
          cases hp
          exact he
      · constructor
        · simp [onmessage, hs, hu]
        · intro p hp
          simp only [onmessage, hs, hu, if_neg, ite_false] at hp
          cases hp
          simp only [List.all_append]
          have he2 : List.all t isWS = true := he
          simp [hprev, he2]
  | turnComplete =>
    cases hs : s.liveTranscript with
    | none =>
      constructor
      · simp [onmessage, hs]
      · intro p hp
        simp only [onmessage, hs] at hp
        cases hp
    | some prev =>
      have hprev : prev.text.all isWS := hinv prev hs
      by_cases hemp : prev.text = []
      · constructor
        · simp [onmessage, hs, hemp]
        · intro p hp
          simp only [onmessage, hs, hemp, if_pos] at hp
          cases hp
      · constructor
        · simp [onmessage, hs, hemp, addTranscription, htrim prev.text hprev]
        · intro p hp
          simp only [onmessage, hs, hemp, ite_false] at hp
          cases hp

/-- C8: a fragment sequence consisting only of whitespace never produces a
finalized entry, regardless of turn-boundary or speaker-switch signals. -/
theorem whitespace_fragments_no_entry
    (evs : List LiveServerEvent) (h : List Transcription) (pts : ℕ)
    (hws : ∀ e ∈ evs, eventWS e) :
    (runLive ⟨none, h, pts⟩ evs).history = h := by
  suffices hgen : ∀ (evs : List LiveServerEvent) (s : RecState),
      (∀ e ∈ evs, eventWS e) →
      (∀ p, s.liveTranscript = some p → p.text.all isWS) →
      (runLive s evs).history = s.history by
    exact hgen evs ⟨none, h, pts⟩ hws (by intro p hp; cases hp)
  intro evs
  induction evs with
  | nil => intro s _ _; rfl
  | cons e rest ih =>
    intro s hall hinv
    have hstep := onmessage_ws_step s e hinv (hall e (List.mem_cons_self e rest))
    have := ih (onmessage s e) (fun x hx => hall x (List.mem_cons_of_mem e hx)) hstep.2
    rw [runLive, this, hstep.1]

/-- Witness for C8 on a concrete whitespace-only event sequence with a
speaker switch and a turn boundary. -/
theorem whitespace_fragments_no_entry_witness :
    (∀ e ∈ ([.inputTranscription [' '], .outputTranscription ['\t', ' '],
             .turnComplete, .outputTranscription []] : List LiveServerEvent),
       eventWS e) ∧
    (runLive ⟨none, [], 0⟩
        [.inputTranscription [' '], .outputTranscription ['\t', ' '],
         .turnComplete, .outputTranscription []]).history = [] := by
  exact ⟨by decide,
    whitespace_fragments_no_entry
      [.inputTranscription [' '], .outputTranscription ['\t', ' '],
       .turnComplete, .outputTranscription []] [] 0 (by decide)⟩

/-- The cases in which one reconciliation step finalizes a pending user entry:
an AI fragment arriving over a pending user entry, or a turn-complete signal
over a pending user entry with non-empty raw text. -/
def userTurnFinalized (s : RecState) (e : LiveServerEvent) : Prop :=
  (∃ t txt, e = .outputTranscription t ∧ s.liveTranscript = some ⟨.user, txt⟩) ∨
  (e = .turnComplete ∧ ∃ txt, s.liveTranscript = some ⟨.user, txt⟩ ∧ txt ≠ [])

/-- C4 (amended): one reconciliation step increases the points counter by
exactly 5 when it finalizes a pending user entry — on a speaker switch
regardless of the pending text, or at turn-complete when the pending raw text
is non-empty — and leaves the counter unchanged in every other case.  The
award is tied to finalization, not to emission: it also happens when the
finalized user text is whitespace-only and is dropped without producing an
entry. -/
theorem points_change_iff (s : RecState) (e : LiveServerEvent) :
    ((onmessage s e).points = s.points + 5 ↔ userTurnFinalized s e) ∧
    (¬ userTurnFinalized s e → (onmessage s e).points = s.points) := by
  cases e with
  | outputTranscription t =>
    cases hs : s.liveTranscript with
    | none => simp [onmessage, hs, userTurnFinalized]
    | some prev =>
      obtain ⟨ps, pt⟩ := prev
      cases ps <;> simp [onmessage, hs, userTurnFinalized]
  | inputTranscription t =>
    cases hs : s.liveTranscript with
    | none => simp [onmessage, hs, userTurnFinalized]
    | some prev =>
      obtain ⟨ps, pt⟩ := prev
      cases ps <;> simp [onmessage, hs, userTurnFinalized]
  | turnComplete =>
    cases hs : s.liveTranscript with
    | none => simp [onmessage, hs, userTurnFinalized]
    | some prev =>
      obtain ⟨ps, pt⟩ := prev
      by_cases hemp : pt = [] <;>
        cases ps <;> simp [onmessage, hs, hemp, userTurnFinalized]

/-- C4 is false as stated: an AI fragment arriving over a whitespace-only
pending user entry awards 5 points while committing no user entry at all —
points change without a user-speaker entry being finalized and emitted. -/
theorem points_award_cex :
    (runLive ⟨none, [], 0⟩
        [.inputTranscription [' '], .outputTranscription ['x']]).points = 5 ∧
    (runLive ⟨none, [], 0⟩
        [.inputTranscription [' '], .outputTranscription ['x']]).history = [] := by
  decide


/-- C3: one streak update with the last practice exactly one day ago increments
the streak by exactly 1 and stamps today; with the last practice already today
it is a no-op; with the last practice absent or two or more days in the past it
resets the streak to 1 and stamps today. -/
theorem updateStreak_spec (p : ProgressData) (today : ℕ) (htoday : 1 ≤ today) :
    (p.lastPracticeDate = some (today - 1) →
       updateStreak p today =
         { p with streak := p.streak + 1, lastPracticeDate := some today }) ∧
    (p.lastPracticeDate = some today → updateStreak p today = p) ∧
    ((p.lastPracticeDate = none ∨ ∃ d, p.lastPracticeDate = some d ∧ d + 2 ≤ today) →
       updateStreak p today =
         { p with streak := 1, lastPracticeDate := some today }) := by
  refine ⟨?_, ?_, ?_⟩
  · intro hd
    have hne : today - 1 ≠ today := by omega
    rw [updateStreak, hd, if_neg (by simp [hne])]
    simp
  · intro hd
    rw [updateStreak, if_pos hd]
  · intro hd
    rcases hd with hd | ⟨d, hd, hfar⟩
    · rw [updateStreak, hd, if_neg (by simp)]
      simp
    · have h1 : d ≠ today := by omega
      have h2 : d ≠ today - 1 := by omega
      rw [updateStreak, hd, if_neg (by simp [h1])]
      simp [h2]

/-- Witness for C3 at a concrete record and day. -/
theorem updateStreak_spec_witness :
    1 ≤ 10 ∧
    ((⟨20, 3, some 9, 2, 1⟩ : ProgressData).lastPracticeDate = some (10 - 1) →
       updateStreak ⟨20, 3, some 9, 2, 1⟩ 10 =
         { (⟨20, 3, some 9, 2, 1⟩ : ProgressData) with
             streak := 3 + 1, lastPracticeDate := some 10 }) ∧
    ((⟨20, 3, some 9, 2, 1⟩ : ProgressData).lastPracticeDate = some 10 →
       updateStreak ⟨20, 3, some 9, 2, 1⟩ 10 = ⟨20, 3, some 9, 2, 1⟩) ∧
    (((⟨20, 3, some 9, 2, 1⟩ : ProgressData).lastPracticeDate = none ∨
        ∃ d, (⟨20, 3, some 9, 2, 1⟩ : ProgressData).lastPracticeDate = some d ∧
          d + 2 ≤ 10) →
       updateStreak ⟨20, 3, some 9, 2, 1⟩ 10 =
         { (⟨20, 3, some 9, 2, 1⟩ : ProgressData) with
             streak := 1, lastPracticeDate := some 10 }) :=
  ⟨by decide, updateStreak_spec ⟨20, 3, some 9, 2, 1⟩ 10 (by decide)⟩

/-- Every start time produced by the run of the scheduler is at least the
initial cursor, provided durations are nonnegative. -/
theorem runSchedule_start_ge (chunks : List (ℚ × ℚ)) :
    ∀ cursor : ℚ, (∀ p ∈ chunks, 0 ≤ p.2) →
      ∀ x ∈ runSchedule cursor chunks, cursor ≤ x.1 := by
  induction chunks with
  | nil => intro cursor _ x hx; cases hx
  | cons c rest ih =>
    obtain ⟨now, dur⟩ := c
    intro cursor hdur x hx
    have hd0 : 0 ≤ dur := hdur (now, dur) (List.mem_cons_self _ _)
    rcases List.mem_cons.mp hx with hx | hx
    · rw [hx]
      exact le_max_left cursor now
    · have hrest := ih (max cursor now + dur)
        (fun q hq => hdur q (List.mem_cons_of_mem _ hq)) x hx
      calc cursor ≤ max cursor now := le_max_left cursor now
        _ ≤ max cursor now + dur := le_add_of_nonneg_right hd0
        _ ≤ x.1 := hrest

/-- The run of the scheduler produces pairwise non-overlapping intervals when
durations are nonnegative. -/
theorem runSchedule_pairwise (chunks : List (ℚ × ℚ)) :
    ∀ cursor : ℚ, (∀ p ∈ chunks, 0 ≤ p.2) →
      (runSchedule cursor chunks).Pairwise (fun a b => a.1 + a.2 ≤ b.1) := by
  induction chunks with
  | nil => intro cursor _; exact List.Pairwise.nil
  | cons c rest ih =>
    obtain ⟨now, dur⟩ := c
    intro cursor hdur
    have hrestdur : ∀ q ∈ rest, 0 ≤ q.2 := fun q hq => hdur q (List.mem_cons_of_mem _ hq)
    show List.Pairwise _ ((max cursor now, dur) :: runSchedule (max cursor now + dur) rest)
    refine List.Pairwise.cons ?_ (ih (max cursor now + dur) hrestdur)
    intro b hb
    have hge := runSchedule_start_ge rest (max cursor now + dur) hrestdur b hb
    simpa using hge

/-- C5: each audio chunk is scheduled at the cursor clamped up to the clock's
current time (so never earlier than the clock), the cursor then advances by
exactly the buffer's duration, and consequently, for nonnegative durations,
the intervals scheduled by a run never overlap: each buffer starts no earlier
than the end of every earlier buffer. -/
theorem playback_schedule_no_overlap
    (cursor now dur : ℚ) (chunks : List (ℚ × ℚ))
    (hdur : ∀ p ∈ chunks, 0 ≤ p.2) :
    (scheduleAudioChunk cursor now dur).1 = max cursor now ∧
    now ≤ (scheduleAudioChunk cursor now dur).1 ∧
    (scheduleAudioChunk cursor now dur).2 =
      (scheduleAudioChunk cursor now dur).1 + dur ∧
    (runSchedule cursor chunks).Pairwise (fun a b => a.1 + a.2 ≤ b.1) := by
  refine ⟨rfl, le_max_right cursor now, rfl, runSchedule_pairwise chunks cursor hdur⟩

/-- Witness for C5 at a concrete cursor, clock, duration and chunk list. -/
theorem playback_schedule_no_overlap_witness :
    (∀ p ∈ ([((0 : ℚ), (1 : ℚ)), ((3 : ℚ), (2 : ℚ))] : List (ℚ × ℚ)), 0 ≤ p.2) ∧
    ((scheduleAudioChunk 0 1 2).1 = max 0 1 ∧
     (1 : ℚ) ≤ (scheduleAudioChunk 0 1 2).1 ∧
     (scheduleAudioChunk 0 1 2).2 = (scheduleAudioChunk 0 1 2).1 + 2 ∧
     (runSchedule 0 ([((0 : ℚ), (1 : ℚ)), ((3 : ℚ), (2 : ℚ))] : List (ℚ × ℚ))).Pairwise
       (fun a b => a.1 + a.2 ≤ b.1)) :=
  ⟨by decide, playback_schedule_no_overlap 0 1 2 [(0, 1), (3, 2)] (by decide)⟩

/-- Wrapping is the identity on values already in the signed 16-bit range. -/
theorem toInt16_eq_self (n : ℤ) (h1 : -32768 ≤ n) (h2 : n < 32768) :
    toInt16 n = n := by
  unfold toInt16
  split <;> omega

/-- C6 (amended): for every sample in the half-open interval [-1, 1), decoding
after encoding returns the original sample with error strictly below the
16-bit quantization step 1/32768.  (At the right endpoint 1 itself the encoder
wraps around; see the counterexample.) -/
theorem sample_roundtrip_quantization (x : ℚ) (h1 : -1 ≤ x) (h2 : x < 1) :
    |decodeSample (createBlobSample x) - x| < 1 / 32768 := by
  have hy1 : (-32768 : ℚ) ≤ x * 32768 := by nlinarith
  have hy2 : x * 32768 < 32768 := by nlinarith
  set y := x * 32768 with hy
  set t := jsTrunc y with htdef
  have hbounds : y - 1 < (t : ℚ) ∧ (t : ℚ) < y + 1 ∧ -32768 ≤ t ∧ t < 32768 := by
    rw [htdef]; unfold jsTrunc
    by_cases h0 : 0 ≤ y
    · rw [if_pos h0]
      refine ⟨Int.sub_one_lt_floor y, ?_, ?_, ?_⟩
      · have := Int.floor_le y; linarith
      · exact Int.le_floor.mpr (by push_cast; linarith)
      · exact Int.floor_lt.mpr (by push_cast; linarith)
    · rw [if_neg h0]
      push_neg at h0
      refine ⟨?_, Int.ceil_lt_add_one y, ?_, ?_⟩
      · have := Int.le_ceil y; linarith
      · have hcl := Int.le_ceil y
        have : (-32768 : ℚ) ≤ (⌈y⌉ : ℚ) := le_trans hy1 hcl
        exact_mod_cast this
      · have hcnp : ⌈y⌉ ≤ 0 := Int.ceil_le.mpr (by push_cast; linarith)
        omega
  obtain ⟨hb1, hb2, hb3, hb4⟩ := hbounds
  have hcb : createBlobSample x = t := by
    rw [createBlobSample, ← hy, ← htdef]
    exact toInt16_eq_self t hb3 hb4
  have hx : x = y / 32768 := by rw [hy]; field_simp
  rw [hcb, decodeSample, hx, div_sub_div_same]
  have habs : |(t : ℚ) - y| < 1 := abs_sub_lt_iff.mpr ⟨by linarith, by linarith⟩
  calc |((t : ℚ) - y) / 32768| = |(t : ℚ) - y| / 32768 := by
        rw [abs_div]
        norm_num
    _ < 1 / 32768 := by
        exact (div_lt_div_iff_of_pos_right (by norm_num)).mpr habs

/-- C6 is false at the right endpoint: the sample 1 is scaled to 32768, which
wraps to -32768 in the 16-bit store, so the round trip returns -1, an error of
2 rather than one quantization step. -/
theorem sample_roundtrip_cex :
    createBlobSample 1 = -32768 ∧ decodeSample (createBlobSample 1) = -1 ∧
    ¬ |decodeSample (createBlobSample 1) - 1| < 1 / 32768 := by
  have h1 : createBlobSample 1 = -32768 := by
    have hj : jsTrunc ((1 : ℚ) * 32768) = 32768 := by
      unfold jsTrunc
      rw [if_pos (by norm_num)]
      rw [show ((1 : ℚ) * 32768) = ((32768 : ℤ) : ℚ) by norm_num]
      exact Int.floor_intCast 32768
    rw [createBlobSample, hj]
    unfold toInt16
    decide
  have h2 : decodeSample (-32768) = -1 := by
    rw [decodeSample]
    norm_num
  refine ⟨h1, by rw [h1, h2], ?_⟩
  rw [h1, h2]
  rw [show (-1 : ℚ) - 1 = -2 by norm_num, abs_neg,
      abs_of_pos (by norm_num : (0 : ℚ) < 2)]
  norm_num

/-- Witness for C6's amended theorem at the sample 0. -/
theorem sample_roundtrip_witness :
    (-1 : ℚ) ≤ 0 ∧ (0 : ℚ) < 1 ∧
    |decodeSample (createBlobSample 0) - 0| < 1 / 32768 :=
  ⟨by decide, by decide, sample_roundtrip_quantization 0 (by decide) (by decide)⟩

/-- Mapping the chat streaming-loop text replacement over messages none of
which carry the stream id changes nothing. -/
theorem replaceById_not_mem (l : List Message) (aiId : ℕ) (newText : Str)
    (h : ∀ m ∈ l, m.id ≠ aiId) :
    l.map (fun m => if m.id = aiId then { m with text := newText } else m) = l := by
  induction l with
  | nil => rfl
  | cons a rest ih =>
    rw [List.map_cons, if_neg (h a (List.mem_cons_self _ _)),
        ih (fun m hm => h m (List.mem_cons_of_mem _ hm))]

/-- Streaming further chunks over a base list (free of the stream id) followed
by the accumulating AI message extends that message's text by the chunks'
concatenation. -/
theorem streamChunks_fresh (chunks : List Str) :
    ∀ (base : List Message) (acc : Str) (aiId : ℕ),
      (∀ m ∈ base, m.id ≠ aiId) →
      streamChunks (base ++ [⟨aiId, .ai, acc⟩]) aiId acc chunks =
        base ++ [⟨aiId, .ai, acc ++ chunks.flatten⟩] := by
  induction chunks with
  | nil => intro base acc aiId _; simp [streamChunks]
  | cons c rest ih =>
    intro base acc aiId hbase
    rw [streamChunks]
    have hany : (base ++ [(⟨aiId, .ai, acc⟩ : Message)]).any
        (fun m => m.id = aiId) = true := by
      simp
    rw [applyChunkUpdate, if_pos hany, List.map_append,
        replaceById_not_mem base aiId (acc ++ c) hbase]
    have hone : ([(⟨aiId, .ai, acc⟩ : Message)]).map
        (fun m => if m.id = aiId then { m with text := acc ++ c } else m) =
        [⟨aiId, .ai, acc ++ c⟩] := by
      simp
    rw [hone, ih base (acc ++ c) aiId hbase, List.flatten_cons, List.append_assoc]

/-- Streaming a reply into a message list free of the stream id appends the
user-visible AI message exactly when at least one chunk arrived, carrying the
concatenation of all chunks. -/
theorem streamChunks_from_fresh (msgs : List Message) (aiId : ℕ) (chunks : List Str)
    (h : ∀ m ∈ msgs, m.id ≠ aiId) :
    streamChunks msgs aiId [] chunks =
      msgs ++ (if chunks = [] then [] else [⟨aiId, .ai, chunks.flatten⟩]) := by
  cases chunks with
  | nil => simp [streamChunks]
  | cons c rest =>
    rw [streamChunks]
    have hany : ¬ ((msgs.any (fun m => m.id = aiId)) = true) := by
      simp only [List.any_eq_true, decide_eq_true_eq]
      rintro ⟨x, hx, hid⟩
      exact h x hx hid
    rw [applyChunkUpdate, if_neg hany]
    rw [streamChunks_fresh rest msgs ([] ++ c) aiId h]
    simp [List.flatten_cons]

/-- C7: saving a conversation record and re-reading the collection yields a
collection containing that record — with transcript content identical to what
was passed in and the clock's id and date — and the returned collection is
sorted newest-first by date. -/
theorem saveConversation_roundtrip
    (store : Option (List SavedConversation)) (ctype : ConvType)
    (transcript : List TranscriptItem) (now : ℕ) :
    (∃ r ∈ getSavedConversations (some (saveConversation store ctype transcript now)),
       r.id = now ∧ r.date = now ∧ r.type = ctype ∧ r.transcript = transcript) ∧
    (getSavedConversations (some (saveConversation store ctype transcript now))).Pairwise
      (fun a b => b.date ≤ a.date) := by
  constructor
  · refine ⟨⟨now, ctype, now, transcript⟩, ?_, rfl, rfl, rfl, rfl⟩
    rw [getSavedConversations]
    simp only [Option.getD_some]
    rw [List.mem_mergeSort]
    exact List.mem_cons_self _ _
  · rw [getSavedConversations]
    simp only [Option.getD_some]
    refine List.Pairwise.imp (fun hab => of_decide_eq_true hab)
      (List.sorted_mergeSort ?_ ?_ (saveConversation store ctype transcript now))
    · intro a b c hab hbc
      simp only [decide_eq_true_eq] at hab hbc ⊢
      exact le_trans hbc hab
    · intro a b
      rcases Nat.le_total b.date a.date with hle | hle <;> simp [hle]

/-- C9: with a valid pending user submission, a mid-stream failure leaves the
loading flag cleared, appends the user message, the partial reply (when any
chunk arrived) and the fixed fallback error message as the assistant's reply,
and the session remains usable: a subsequent valid submission is accepted and
processed normally. -/
theorem chat_failure_keeps_session_usable
    (msgs : List Message) (input input2 reply : Str) (chunks : List Str)
    (uid aid eid uid2 aid2 eid2 : ℕ)
    (hin : trimStr input ≠ [])
    (hfresh : ∀ m ∈ msgs, m.id ≠ aid) (huid : uid ≠ aid)
    (hin2 : trimStr input2 ≠ [])
    (hfresh2 : ∀ m ∈ msgs, m.id ≠ aid2)
    (huid2 : uid ≠ aid2) (haid2 : aid ≠ aid2) (heid2 : eid ≠ aid2)
    (huid22 : uid2 ≠ aid2) :
    handleSendMessage msgs false true input uid aid eid (.failure chunks) =
      (msgs ++ [⟨uid, .user, input⟩] ++
         (if chunks = [] then [] else [⟨aid, .ai, chunks.flatten⟩]) ++
         [⟨eid, .ai, fallbackErrorText⟩], false) ∧
    handleSendMessage
        (msgs ++ [⟨uid, .user, input⟩] ++
           (if chunks = [] then [] else [⟨aid, .ai, chunks.flatten⟩]) ++
           [⟨eid, .ai, fallbackErrorText⟩])
        false true input2 uid2 aid2 eid2 (.success [reply]) =
      (msgs ++ [⟨uid, .user, input⟩] ++
         (if chunks = [] then [] else [⟨aid, .ai, chunks.flatten⟩]) ++
         [⟨eid, .ai, fallbackErrorText⟩] ++
         [⟨uid2, .user, input2⟩, ⟨aid2, .ai, reply⟩], false) := by
  have hfr1 : ∀ m ∈ msgs ++ [(⟨uid, .user, input⟩ : Message)], m.id ≠ aid := by
    intro m hm
    rcases List.mem_append.mp hm with hm | hm
    · exact hfresh m hm
    · rw [List.mem_singleton] at hm
      rw [hm]
      exact huid
  constructor
  · rw [handleSendMessage, if_neg (by simp [hin])]
    show (streamChunks (msgs ++ [⟨uid, .user, input⟩]) aid [] chunks ++
            [⟨eid, .ai, fallbackErrorText⟩], false) = _
    rw [streamChunks_from_fresh (msgs ++ [(⟨uid, .user, input⟩ : Message)]) aid chunks hfr1]
  · rw [handleSendMessage, if_neg (by simp [hin2])]
    show (streamChunks
            (msgs ++ [⟨uid, .user, input⟩] ++
               (if chunks = [] then [] else [⟨aid, .ai, chunks.flatten⟩]) ++
               [⟨eid, .ai, fallbackErrorText⟩] ++ [⟨uid2, .user, input2⟩])
            aid2 [] [reply], false) = _
    have hfr2 : ∀ m ∈ msgs ++ [(⟨uid, .user, input⟩ : Message)] ++
        (if chunks = [] then [] else [⟨aid, .ai, chunks.flatten⟩]) ++
        [(⟨eid, .ai, fallbackErrorText⟩ : Message)] ++
        [(⟨uid2, .user, input2⟩ : Message)], m.id ≠ aid2 := by
      intro m hm
      rcases List.mem_append.mp hm with hm | hm
      rotate_left
      · rw [List.mem_singleton] at hm
        rw [hm]
        exact huid22
      rcases List.mem_append.mp hm with hm | hm
      rotate_left
      · rw [List.mem_singleton] at hm
        rw [hm]
        exact heid2
      rcases List.mem_append.mp hm with hm | hm
      rotate_left
      · rcases Decidable.em (chunks = []) with hc | hc
        · rw [if_pos hc] at hm
          cases hm
        · rw [if_neg hc, List.mem_singleton] at hm
          rw [hm]
          exact haid2
      rcases List.mem_append.mp hm with hm | hm
      · exact hfresh2 m hm
      · rw [List.mem_singleton] at hm
        rw [hm]
        exact huid2
    rw [streamChunks_from_fresh _ aid2 [reply] hfr2]
    simp [List.append_assoc]

/-- Witness for C9 at a concrete session with one partial chunk before the
failure and one successful follow-up submission. -/
theorem chat_failure_witness :
    trimStr ['h'] ≠ [] ∧
    (∀ m ∈ ([] : List Message), m.id ≠ 2) ∧
    (1 : ℕ) ≠ 2 ∧
    trimStr ['k'] ≠ [] ∧
    (∀ m ∈ ([] : List Message), m.id ≠ 5) ∧
    (1 : ℕ) ≠ 5 ∧ (2 : ℕ) ≠ 5 ∧ (3 : ℕ) ≠ 5 ∧ (4 : ℕ) ≠ 5 ∧
    (handleSendMessage [] false true ['h'] 1 2 3 (.failure [['p']]) =
       ([] ++ [⟨1, .user, ['h']⟩] ++
          (if ([['p']] : List Str) = [] then []
           else [⟨2, .ai, ([['p']] : List Str).flatten⟩]) ++
          [⟨3, .ai, fallbackErrorText⟩], false) ∧
     handleSendMessage
         ([] ++ [⟨1, .user, ['h']⟩] ++
            (if ([['p']] : List Str) = [] then []
             else [⟨2, .ai, ([['p']] : List Str).flatten⟩]) ++
            [⟨3, .ai, fallbackErrorText⟩])
         false true ['k'] 4 5 6 (.success [['r']]) =
       ([] ++ [⟨1, .user, ['h']⟩] ++
          (if ([['p']] : List Str) = [] then []
           else [⟨2, .ai, ([['p']] : List Str).flatten⟩]) ++
          [⟨3, .ai, fallbackErrorText⟩] ++
          [⟨4, .user, ['k']⟩, ⟨5, .ai, ['r']⟩], false)) :=
  ⟨by decide, by decide, by decide, by decide, by decide, by decide, by decide,
   by decide, by decide,
   chat_failure_keeps_session_usable [] ['h'] ['k'] ['r'] [['p']] 1 2 3 4 5 6
     (by decide) (by decide) (by decide) (by decide) (by decide) (by decide)
     (by decide) (by decide) (by decide)⟩

/-- C10: the explicit save appends the pending fragment untrimmed to the final
transcript whenever its raw text is non-empty, and that transcript goes both
into the new SavedConversation record and into the originating
ContinuableSession; when the pending text is whitespace-only, session teardown
instead trims and drops it. -/
theorem pending_save_untrimmed
    (history : List Transcription) (lt : LiveTranscript)
    (session : ContinuableSession) (now : ℕ)
    (hne : lt.text ≠ []) :
    (handleSave history (some lt) session now).1.transcript =
      (history ++ [(⟨lt.sender.toSender, lt.text⟩ : Transcription)]).map Sum.inr ∧
    (handleSave history (some lt) session now).2.transcript =
      history ++ [⟨lt.sender.toSender, lt.text⟩] ∧
    (trimStr lt.text = [] → endSessionFinalHistory history (some lt) = history) := by
  refine ⟨?_, ?_, ?_⟩
  · simp [handleSave, handleSaveTranscript, hne]
  · simp [handleSave, handleSaveTranscript, hne]
  · intro hws
    simp [endSessionFinalHistory, hws]

/-- Witness for C10 at a concrete whitespace-only pending user fragment. -/
theorem pending_save_untrimmed_witness :
    ((⟨.user, [' ']⟩ : LiveTranscript).text ≠ []) ∧
    ((handleSave [] (some ⟨.user, [' ']⟩) ⟨7, [], 0, []⟩ 5).1.transcript =
       (([] ++ [⟨Sender.user, [' ']⟩] : List Transcription)).map Sum.inr ∧
     (handleSave [] (some ⟨.user, [' ']⟩) ⟨7, [], 0, []⟩ 5).2.transcript =
       [] ++ [⟨Sender.user, [' ']⟩] ∧
     (trimStr ([' '] : Str) = [] →
        endSessionFinalHistory [] (some ⟨.user, [' ']⟩) = [])) :=
  ⟨by decide, pending_save_untrimmed [] ⟨.user, [' ']⟩ ⟨7, [], 0, []⟩ 5 (by decide)⟩
